import Mathlib

/-!
# NanoRedis — formal model of the core (storage engine, frame codec, command replies)

Shallow embedding of the NanoRedis server sources:
* `src/entity/db.rs` — the storage engine (`Db::get`, `Db::set`, `Db::incrby`,
  `Db::push`, `Shared::purge_expired_keys`, `Db::shutdown_purge_task`);
* `src/entity/frame.rs` — the wire-format checker (`Frame::check` and its helpers
  `peek_u8`, `get_u8`, `skip`, `get_line`, `get_decimal`);
* `src/connect/connection.rs` — the wire-format writer (`Connection::write_frame`
  / `write_value` / `write_decimal` / `write_i64`);
* `src/cmd/get.rs`, `src/cmd/incrby.rs`, `src/cmd/push.rs` — command reply logic.

Conventions of the embedding:
* Rust `Bytes` is `List Nat` (byte values);
* `tokio::time::Instant` and `Duration` are `Nat` (an abstract clock);
* a Rust panic (`unwrap` on `None`/`Err`, `unreachable!`) is the `Panics.panicked`
  value of the `Panics` result type; code that cannot panic keeps a plain type;
* `HashMap<String, Entry>` is a function `String → Option Entry`;
* `BTreeSet<(Instant, String)>` is a strictly-sorted duplicate-free
  `List (Nat × String)`; its iteration order (used by the expiration sweeper)
  is the list order.
-/

namespace NanoRedis

/-- Byte strings (`bytes::Bytes`): lists of byte values. -/
abbrev Bytes := List Nat

/-- Result of running a piece of Rust code that may panic
(`unwrap` on an empty `Option` / an `Err`, or `unreachable!`). -/
inductive Panics (α : Type) where
  | ok (a : α)
  | panicked
  deriving DecidableEq, Repr

/-- ASCII bytes of a Rust string literal (all literals used here are ASCII). -/
def strToBytes (s : String) : Bytes :=
  s.toList.map Char.toNat

/-- `enum DbData` from `src/entity/db.rs`: the tagged union of stored value kinds. -/
inductive DbData where
  | string (b : Bytes)
  | list (l : List Bytes)
  | set (s : List Bytes)
  | hash (h : List (Bytes × Bytes))
  deriving DecidableEq, Repr

/-- `struct Entry` from `src/entity/db.rs`: stored data plus optional expiration instant. -/
structure Entry where
  data : DbData
  expires_at : Option Nat
  deriving DecidableEq, Repr

/-- `struct State` from `src/entity/db.rs`: the mutex-guarded shared state. -/
structure State where
  entries : String → Option Entry
  expirations : List (Nat × String)
  shutdown : Bool

/-- `HashMap::insert` (the map after insertion; the previous value is read separately). -/
def mapInsert (m : String → Option Entry) (k : String) (e : Entry) : String → Option Entry :=
  fun x => if x = k then some e else m x

/-- `HashMap::remove` (the map after removal). -/
def mapRemove (m : String → Option Entry) (k : String) : String → Option Entry :=
  fun x => if x = k then none else m x

/-- Strict lexicographic order on `(Instant, key)` pairs: the `BTreeSet` element order. -/
def expLt (a b : Nat × String) : Prop :=
  a.1 < b.1 ∨ (a.1 = b.1 ∧ a.2 < b.2)

instance : DecidableRel expLt := fun a b => by
  unfold expLt; infer_instance

/-- `BTreeSet::insert` on the strictly-sorted list representation:
insert in order, no duplicate is created. -/
def setInsert (l : List (Nat × String)) (p : Nat × String) : List (Nat × String) :=
  match l with
  | [] => [p]
  | q :: rest =>
    if expLt p q then p :: q :: rest
    else if p = q then q :: rest
    else q :: setInsert rest p

/-- `BTreeSet::remove` on the list representation. -/
def setRemove (l : List (Nat × String)) (p : Nat × String) : List (Nat × String) :=
  l.erase p

/-- `State::next_expiration`: the instant of the first (least) element of `expirations`. -/
def nextExpiration (s : State) : Option Nat :=
  s.expirations.head?.map (·.1)

/-- `fn bytes_to_i64` from `src/utils/serialization.rs`:
UTF-8 decode then `str::parse::<i64>`.  An optional leading `+`/`-` sign followed by
at least one decimal digit, nothing else, value within `i64` range; any other input
(including any non-ASCII byte, which fails either the UTF-8 or the digit check) is `Err`.
-/
def decDigits (l : List Nat) : Option Nat :=
  match l with
  | [] => none
  | _ =>
    l.foldl
      (fun acc d =>
        acc.bind fun a => if 48 ≤ d ∧ d ≤ 57 then some (a * 10 + (d - 48)) else none)
      (some 0)

def bytesToI64 (b : Bytes) : Option Int :=
  match b with
  | 43 :: rest => (decDigits rest).bind fun n =>
      if (n : Int) ≤ (2 ^ 63 - 1 : Int) then some (n : Int) else none
  | 45 :: rest => (decDigits rest).bind fun n =>
      if (-(n : Int)) ≥ (-(2 ^ 63) : Int) then some (-(n : Int)) else none
  | _ => (decDigits b).bind fun n =>
      if (n : Int) ≤ (2 ^ 63 - 1 : Int) then some (n : Int) else none

/-- `Bytes::from(i.to_string())`: decimal text of an integer, as bytes. -/
def intToDecimalBytes (i : Int) : Bytes :=
  strToBytes (toString i)

/-- The literal `Bytes::from("OK")`. -/
def okBytes : Bytes := strToBytes "OK"

/-- The literal `Bytes::from("error")`. -/
def errorBytes : Bytes := strToBytes "error"

/-- `Db::get` from `src/entity/db.rs` (lines 109–121).  Note the source reads
`state.entries.get(key).map(|entry| entry.data.clone()).unwrap()`: the `unwrap`
panics when the key is absent. -/
def dbGet (s : State) (key : String) : Panics (Option Bytes) :=
  match s.entries key with
  | none => .panicked
  | some entry =>
    match entry.data with
    | .string v => .ok (some v)
    | .list _ => .ok none
    | .set _ => .ok none
    | .hash _ => .ok none

/-- `Db::set` from `src/entity/db.rs` (lines 124–168).  `now` is the value of
`Instant::now()` during the call; the returned `Bool` is the `notify` flag
(whether `background_task.notify_one()` runs after the lock is released). -/
def dbSet (s : State) (key : String) (value : Bytes) (expire : Option Nat) (now : Nat) :
    State × Bool :=
  -- the closure passed to `expire.map`: computes `when` and sets `notify`
  let pair : Option Nat × Bool :=
    match expire with
    | none => (none, false)
    | some duration =>
      let when := now + duration
      let n : Bool :=
        match nextExpiration s with
        | some expiration => decide (expiration > when)
        | none => true
      (some when, n)
  let expires_at := pair.1
  let notify := pair.2
  let prev := s.entries key
  let entries1 := mapInsert s.entries key ⟨.string value, expires_at⟩
  -- if the key already existed with an expiration, remove its pair first
  let exp1 :=
    match prev with
    | some p =>
      match p.expires_at with
      | some when => setRemove s.expirations (when, key)
      | none => s.expirations
    | none => s.expirations
  -- then insert the new pair, if any
  let exp2 :=
    match expires_at with
    | some when => setInsert exp1 (when, key)
    | none => exp1
  ({ entries := entries1, expirations := exp2, shutdown := s.shutdown }, notify)

/-- `Db::incrby` from `src/entity/db.rs` (lines 171–213).

First pass (`state.entries.get_mut`): a stored `String` is parsed with
`bytes_to_i64(..).unwrap()` — a panic on non-numeric bytes — and overwritten
in place with the decimal text of `parsed + value`; other kinds are untouched.

Second pass: `state.entries.get_mut(&key).map(|entry| entry.data.clone())`
yields a *clone* of the data; the `*data = ...` assignment mutates only that
clone, so the stored state is not changed by the second pass.  The returned
value is `Some("error")` when the key is absent and `Some("OK")` otherwise. -/
def dbIncrby (s : State) (key : String) (value : Int) : Panics (State × Option Bytes) :=
  let step1 : Panics State :=
    match s.entries key with
    | none => .ok s
    | some entry =>
      match entry.data with
      | .string b =>
        match bytesToI64 b with
        | none => .panicked
        | some int =>
          .ok { s with entries :=
                  mapInsert s.entries key { entry with data := .string (intToDecimalBytes (int + value)) } }
      | .list _ => .ok s
      | .set _ => .ok s
      | .hash _ => .ok s
  match step1 with
  | .panicked => .panicked
  | .ok s1 =>
    match s1.entries key with
    | none => .ok (s1, some errorBytes)
    | some entry =>
      -- `data` is a clone of the entry's data; the assignment below never
      -- reaches the stored entry
      let dataClone := entry.data
      match dataClone with
      | .string b =>
        match bytesToI64 b with
        | none => .panicked
        | some _ =>
          let _newClone := DbData.string (intToDecimalBytes 0)  -- value discarded
          .ok (s1, some okBytes)
      | _ =>
        let _newClone := DbData.string errorBytes  -- value discarded
        .ok (s1, some okBytes)

/-- `Db::push` from `src/entity/db.rs` (lines 214–289).

Absent key: builds a `LinkedList` from the values (`.rev()` first when pushing
left), and inserts a fresh entry; the local `expire` is the literal `None`, so
`expires_at` is `None` and `notify` stays `false`.  Present key: appends each
value to the back (right) or pushes each to the front (left) when the stored
data is a `List`; any other kind leaves the entry untouched. -/
def dbPush (s : State) (key : String) (value : List String) (right : Bool) : State :=
  match s.entries key with
  | none =>
    -- `let expire = None;` — the `expire.map` closure never runs
    let expires_at : Option Nat := none
    let notify : Bool := false
    let linked_list : List Bytes :=
      if right then value.map strToBytes
      else (value.map strToBytes).reverse
    let prev := s.entries key
    let entries1 := mapInsert s.entries key ⟨.list linked_list, expires_at⟩
    let exp1 :=
      match prev with
      | some p =>
        match p.expires_at with
        | some when => setRemove s.expirations (when, key)
        | none => s.expirations
      | none => s.expirations
    let exp2 :=
      match expires_at with
      | some when => setInsert exp1 (when, key)
      | none => exp1
    let _ := notify
    { entries := entries1, expirations := exp2, shutdown := s.shutdown }
  | some entry =>
    match entry.data with
    | .list l =>
      let l' :=
        if right then l ++ value.map strToBytes
        else (value.map strToBytes).reverse ++ l
      { s with entries := mapInsert s.entries key { entry with data := .list l' } }
    | _ => s

/-- The loop of `Shared::purge_expired_keys`: repeatedly look at the least
`(when, key)` pair; stop (returning `Some when`) at the first pair not yet due,
otherwise remove both the entry and the pair and continue. -/
def purgeLoop (now : Nat) (entries : String → Option Entry) :
    List (Nat × String) → (String → Option Entry) × List (Nat × String) × Option Nat
  | [] => (entries, [], none)
  | (when, key) :: rest =>
    if when > now then (entries, (when, key) :: rest, some when)
    else purgeLoop now (mapRemove entries key) rest

/-- `Shared::purge_expired_keys` from `src/entity/db.rs` (lines 303–331):
returns `None` immediately when shut down, otherwise sweeps due pairs.
`now` is `Instant::now()` at the start of the sweep. -/
def purgeExpiredKeys (s : State) (now : Nat) : State × Option Nat :=
  if s.shutdown then (s, none)
  else
    let r := purgeLoop now s.entries s.expirations
    ({ entries := r.1, expirations := r.2.1, shutdown := s.shutdown }, r.2.2)

/-- `Db::shutdown_purge_task` from `src/entity/db.rs` (lines 292–298). -/
def shutdownPurgeTask (s : State) : State :=
  { s with shutdown := true }

/-- The state freshly built by `Db::new`. -/
def State.initial : State :=
  { entries := fun _ => none, expirations := [], shutdown := false }

/-! ## Frame codec (`src/entity/frame.rs` and `src/connect/connection.rs`)

The cursor is a position `pos` into a byte buffer `d`; every helper returns the
new position on success. `frame::Error` is `CheckErr` (`Incomplete` vs. protocol
errors); `fuelOut` is an artifact of the fuel-indexed recursion used to embed
`Frame::check`'s unbounded recursion, and is proved unreachable for sufficient
fuel. -/

inductive CheckErr where
  | incomplete
  | protocol
  | fuelOut
  deriving DecidableEq, Repr

/-- `fn get_u8`: next byte, advancing the cursor. -/
def getU8 (d : List Nat) (pos : Nat) : Except CheckErr (Nat × Nat) :=
  if pos < d.length then .ok (d.getD pos 0, pos + 1) else .error .incomplete

/-- `fn peek_u8`: next byte without advancing. -/
def peekU8 (d : List Nat) (pos : Nat) : Except CheckErr Nat :=
  if pos < d.length then .ok (d.getD pos 0) else .error .incomplete

/-- `fn skip`: advance `n` bytes if that many remain (`src.remaining()` is the
saturating difference, as for `Cursor`). -/
def skip (d : List Nat) (pos : Nat) (n : Nat) : Except CheckErr Nat :=
  if n ≤ d.length - pos then .ok (pos + n) else .error .incomplete

/-- The scan inside `fn get_line`, walking the byte suffix while tracking the
absolute index `i`: stops at the first adjacent `CR LF` pair.  The source scans
`i` in `start..(len - 1)` testing `src[i] == b'\r' && src[i+1] == b'\n'`; that
range is exactly the positions where two bytes remain, i.e. the `a :: b :: _`
shapes of the suffix. -/
def crlfScan : Nat → List Nat → Option Nat
  | _, [] => none
  | _, [_] => none
  | i, a :: b :: rest =>
    if a = 13 ∧ b = 10 then some i else crlfScan (i + 1) (b :: rest)

/-- The least `i ≥ start` with `d[i] = CR` and `d[i+1] = LF` and `i + 1 < d.length`. -/
def findCRLF (d : List Nat) (start : Nat) : Option Nat :=
  crlfScan start (d.drop start)

/-- The byte range `[start, stop)` of a buffer (the line returned by `get_line`). -/
def extractRange (d : List Nat) (start stop : Nat) : List Nat :=
  (d.drop start).take (stop - start)

/-- `fn get_line`: the bytes before the first CRLF, cursor moved past the CRLF. -/
def getLine (d : List Nat) (pos : Nat) : Except CheckErr (List Nat × Nat) :=
  match findCRLF d pos with
  | some i => .ok (extractRange d pos i, i + 2)
  | none => .error .incomplete

/-- `atoi::atoi::<u64>` as used by `get_decimal`: an all-digit, non-empty line
within `u64` range, else `None`. -/
def atoiU64 (l : List Nat) : Option Nat :=
  (decDigits l).bind fun n => if n ≤ 2 ^ 64 - 1 then some n else none

/-- `fn get_decimal`: read a line and parse it; a malformed number is a
protocol error, not `Incomplete`. -/
def getDecimal (d : List Nat) (pos : Nat) : Except CheckErr (Nat × Nat) :=
  match getLine d pos with
  | .error e => .error e
  | .ok (line, pos') =>
    match atoiU64 line with
    | some v => .ok (v, pos')
    | none => .error .protocol

/-- `Frame::check` from `src/entity/frame.rs` (lines 58–101), fuel-indexed and
in worklist form: `n` counts the frames still to be checked sequentially from
`pos` (the source's `*` branch, `for _ in 0..len { Frame::check(src)?; }`,
becomes adding `len` to the worklist — the sequencing, error propagation and
final cursor position are identical to the nested recursion).  Branch bytes:
`+` 43, `-` 45, `:` 58, `$` 36, `*` 42; any other first byte is the protocol
error of the source's final arm.  One unit of fuel is spent per frame tag; each
tag consumes at least one byte, so fuel exceeding the buffer length never runs
out (proved below). -/
def checkRun : Nat → Nat → List Nat → Nat → Except CheckErr Nat
  | _, 0, _, pos => .ok pos
  | 0, _ + 1, _, _ => .error .fuelOut
  | fuel + 1, n + 1, d, pos =>
    match getU8 d pos with
    | .error e => .error e
    | .ok (b, pos1) =>
      if b = 43 then
        match getLine d pos1 with
        | .error e => .error e
        | .ok (_, pos2) => checkRun fuel n d pos2
      else if b = 45 then
        match getLine d pos1 with
        | .error e => .error e
        | .ok (_, pos2) => checkRun fuel n d pos2
      else if b = 58 then
        match getDecimal d pos1 with
        | .error e => .error e
        | .ok (_, pos2) => checkRun fuel n d pos2
      else if b = 36 then
        match peekU8 d pos1 with
        | .error e => .error e
        | .ok c =>
          if c = 45 then
            -- Skip '-1\r\n'
            match skip d pos1 4 with
            | .error e => .error e
            | .ok pos2 => checkRun fuel n d pos2
          else
            match getDecimal d pos1 with
            | .error e => .error e
            | .ok (len, pos2) =>
              match skip d pos2 (len + 2) with
              | .error e => .error e
              | .ok pos3 => checkRun fuel n d pos3
      else if b = 42 then
        match getDecimal d pos1 with
        | .error e => .error e
        | .ok (len, pos2) => checkRun fuel (len + n) d pos2
      else .error .protocol

/-- `Frame::check` run on one frame from the start of a buffer, with fuel that
is proved sufficient (`d.length + 1`): returns the cursor position after one
complete frame, `incomplete`, or `protocol`. -/
def frameCheck (d : List Nat) : Except CheckErr Nat :=
  checkRun (d.length + 1) 1 d 0

/-- The `Frame` enum, in the revision against which `Connection` and `Parse`
compile: `Simple`/`Error` carry a `String` (modelled by its UTF-8 bytes),
`USize` is the unsigned 64-bit integer variant, `Integer` the signed one.
-/
inductive Frame where
  | simple (s : Bytes)
  | error (s : Bytes)
  | usize (v : Nat)
  | integer (v : Int)
  | bulk (b : Bytes)
  | null
  | array (xs : List Frame)

/-- `Connection::write_decimal`'s digits (the `\r\n` is appended by callers here). -/
def natDecimalBytes (v : Nat) : Bytes :=
  strToBytes (toString v)

def CRLF : Bytes := [13, 10]

/-- `Connection::write_value` from `src/connect/connection.rs` (lines 111–146).
Prefix bytes as written by the source: `+` 43 for `Simple`, `#` 35 for `Error`,
`:` 58 for `USize`, `=` 61 for `Integer`, `$` 36 for `Bulk`/`Null`.
A nested `Array` hits `unreachable!()`. -/
def writeValue : Frame → Panics Bytes
  | .simple v => .ok ([43] ++ v ++ CRLF)
  | .error v => .ok ([35] ++ v ++ CRLF)
  | .usize v => .ok ([58] ++ natDecimalBytes v ++ CRLF)
  | .integer v => .ok ([61] ++ intToDecimalBytes v ++ CRLF)
  | .null => .ok (strToBytes "$-1" ++ CRLF)
  | .bulk v => .ok ([36] ++ natDecimalBytes v.length ++ CRLF ++ v ++ CRLF)
  | .array _ => .panicked

/-- `Connection::write_frame` from `src/connect/connection.rs` (lines 89–108):
a top-level `Array` writes `*`, the element count, then each element through
`write_value`; any other frame goes through `write_value` directly. -/
def writeFrame : Frame → Panics Bytes
  | .array xs =>
    xs.foldl
      (fun acc f =>
        match acc with
        | .panicked => .panicked
        | .ok b =>
          match writeValue f with
          | .panicked => .panicked
          | .ok b' => .ok (b ++ b'))
      (.ok ([42] ++ natDecimalBytes xs.length ++ CRLF))
  | f => writeValue f

/-! ## Command appliers (`src/cmd/get.rs`, `src/cmd/incrby.rs`, `src/cmd/push.rs`)

Each `apply` runs the storage-engine operation and writes exactly one reply
frame; the embedding returns that frame (and the updated state for the mutating
commands). A storage-engine panic propagates: the task aborts before a reply
is written. -/

/-- `Get::apply` from `src/cmd/get.rs` (lines 38–51): reply `Bulk` when
`db.get` finds a value, `Null` otherwise. -/
def getApply (s : State) (key : String) : Panics Frame :=
  match dbGet s key with
  | .panicked => .panicked
  | .ok (some value) => .ok (.bulk value)
  | .ok none => .ok .null

/-- `Incrby::apply` from `src/cmd/incrby.rs` (lines 42–49): runs `db.incrby`,
discards its returned value, and always replies `Simple("OK")`. -/
def incrbyApply (s : State) (key : String) (value : Int) : Panics (State × Frame) :=
  match dbIncrby s key value with
  | .panicked => .panicked
  | .ok (s', _) => .ok (s', .simple okBytes)

/-- `Push::apply` from `src/cmd/push.rs` (lines 55–62): runs `db.push` and
always replies `Simple("OK")`. -/
def pushApply (s : State) (key : String) (value : List String) (right : Bool) :
    State × Frame :=
  (dbPush s key value right, .simple okBytes)

/-- Whether a frame is an `Error` reply. -/
def Frame.isErr : Frame → Bool
  | .error _ => true
  | _ => false

/-- Whether stored data is the `String` kind. -/
def DbData.isString : DbData → Bool
  | .string _ => true
  | _ => false

/-- Whether stored data is the `List` kind. -/
def DbData.isList : DbData → Bool
  | .list _ => true
  | _ => false

/-- A state holding exactly one entry, with no expiration (used for concrete runs). -/
def stateWith (k : String) (d : DbData) : State :=
  { entries := mapInsert State.initial.entries k ⟨d, none⟩,
    expirations := [], shutdown := false }

end NanoRedis

namespace NanoRedis

-- sanity checks for the codec model
example : writeFrame (.simple (strToBytes "OK")) = .ok (strToBytes "+OK" ++ CRLF) := by rfl
example : frameCheck (strToBytes "+OK" ++ CRLF) = .ok 5 := by rfl
example : frameCheck (strToBytes "$-1" ++ CRLF) = .ok 5 := by rfl
example : frameCheck (strToBytes "$2" ++ CRLF ++ strToBytes "ab" ++ CRLF) = .ok 8 := by rfl
example : writeFrame (.error (strToBytes "oops")) = .ok (strToBytes "#oops" ++ CRLF) := by rfl
example : frameCheck (strToBytes "#oops" ++ CRLF) = .error .protocol := by rfl
example : frameCheck (strToBytes "=5" ++ CRLF) = .error .protocol := by rfl
example : frameCheck ((strToBytes "+OK" ++ CRLF).take 3) = .error .incomplete := by rfl
example : frameCheck (strToBytes "*2" ++ CRLF ++ strToBytes ":1" ++ CRLF ++ strToBytes ":2" ++ CRLF) = .ok 12 := by rfl
example : frameCheck ((strToBytes "*2" ++ CRLF ++ strToBytes ":1" ++ CRLF ++ strToBytes ":2" ++ CRLF).take 9) = .error .incomplete := by rfl

/-! ## Helper lemmas -/

/-- `Db::incrby` on an existing key holding non-`String` data: the first pass
matches a non-`String` arm and does nothing; the second pass overwrites only a
clone, so the state comes back unchanged with the `Some("OK")` marker. -/
theorem dbIncrby_not_string (s : State) (k : String) (e : Entry) (δ : Int)
    (hk : s.entries k = some e) (hne : e.data.isString = false) :
    dbIncrby s k δ = .ok (s, some okBytes) := by
  obtain ⟨data, ex⟩ := e
  cases data with
  | string b => simp [DbData.isString] at hne
  | list l => simp [dbIncrby, hk]
  | set st => simp [dbIncrby, hk]
  | hash h => simp [dbIncrby, hk]

/-- `Db::push` on an existing key holding non-`List` data: the `if let
DbData::List` patterns both fail and the state is untouched. -/
theorem dbPush_not_list (s : State) (k : String) (e : Entry) (vs : List String) (r : Bool)
    (hk : s.entries k = some e) (hnl : e.data.isList = false) :
    dbPush s k vs r = s := by
  obtain ⟨data, ex⟩ := e
  cases data with
  | list l => simp [DbData.isList] at hnl
  | string b => simp [dbPush, hk]
  | set st => simp [dbPush, hk]
  | hash h => simp [dbPush, hk]

theorem expLt_trans {a b c : Nat × String} (h1 : expLt a b) (h2 : expLt b c) : expLt a c := by
  unfold expLt at *
  rcases h1 with h1 | ⟨e1, h1⟩ <;> rcases h2 with h2 | ⟨e2, h2⟩
  · exact Or.inl (Nat.lt_trans h1 h2)
  · exact Or.inl (e2 ▸ h1)
  · exact Or.inl (e1 ▸ h2)
  · exact Or.inr ⟨e1.trans e2, lt_trans h1 h2⟩

theorem expLt_ne {a b : Nat × String} (h : expLt a b) : a ≠ b := by
  rintro rfl
  rcases h with h | ⟨_, h⟩ <;> exact absurd h (lt_irrefl _)

theorem expLt_total (a b : Nat × String) : expLt a b ∨ a = b ∨ expLt b a := by
  unfold expLt
  rcases Nat.lt_trichotomy a.1 b.1 with h | h | h
  · exact Or.inl (Or.inl h)
  · rcases lt_trichotomy a.2 b.2 with h2 | h2 | h2
    · exact Or.inl (Or.inr ⟨h, h2⟩)
    · exact Or.inr (Or.inl (Prod.ext h h2))
    · exact Or.inr (Or.inr (Or.inr ⟨h.symm, h2⟩))
  · exact Or.inr (Or.inr (Or.inl h))

/-- Membership after a `BTreeSet` insert. -/
theorem mem_setInsert (l : List (Nat × String)) (p x : Nat × String) :
    x ∈ setInsert l p ↔ x = p ∨ x ∈ l := by
  induction l with
  | nil => simp [setInsert]
  | cons q rest ih =>
    by_cases h1 : expLt p q
    · simp [setInsert, if_pos h1, List.mem_cons]
    · by_cases h2 : p = q
      · simp only [setInsert, if_neg h1, if_pos h2, List.mem_cons]
        subst h2
        tauto
      · simp only [setInsert, if_neg h1, if_neg h2, List.mem_cons, ih]
        tauto

/-- A `BTreeSet` insert keeps the list strictly sorted. -/
theorem pairwise_setInsert (l : List (Nat × String)) (p : Nat × String)
    (h : l.Pairwise expLt) : (setInsert l p).Pairwise expLt := by
  induction l with
  | nil => simp [setInsert]
  | cons q rest ih =>
    rcases List.pairwise_cons.mp h with ⟨hq, hrest⟩
    by_cases h1 : expLt p q
    · simp only [setInsert, if_pos h1]
      refine List.pairwise_cons.mpr ⟨?_, h⟩
      intro x hx
      rcases List.mem_cons.mp hx with rfl | hx
      · exact h1
      · exact expLt_trans h1 (hq x hx)
    · by_cases h2 : p = q
      · simp only [setInsert, if_neg h1, if_pos h2]
        exact h
      · simp only [setInsert, if_neg h1, if_neg h2]
        refine List.pairwise_cons.mpr ⟨?_, ih hrest⟩
        intro x hx
        rcases (mem_setInsert rest p x).mp hx with hxp | hx
        · rw [hxp]
          rcases expLt_total p q with h' | h' | h'
          · exact absurd h' h1
          · exact absurd h' h2
          · exact h'
        · exact hq x hx

/-- Strict sortedness implies no duplicates. -/
theorem expWF_nodup {l : List (Nat × String)} (h : l.Pairwise expLt) : l.Nodup :=
  h.imp expLt_ne

/-- Folding front-insertion over a list reverses it. -/
theorem foldl_front_insert {α : Type} (l : List α) (acc : List α) :
    l.foldl (fun a v => v :: a) acc = l.reverse ++ acc := by
  induction l generalizing acc with
  | nil => simp
  | cons x xs ih => simp [List.foldl_cons, ih]

/-- Folding back-insertion over a list keeps its order. -/
theorem foldl_back_insert {α : Type} (l : List α) (acc : List α) :
    l.foldl (fun a v => a ++ [v]) acc = acc ++ l := by
  induction l generalizing acc with
  | nil => simp
  | cons x xs ih => simp [List.foldl_cons, ih]

/-! ### Characterizing `Db::set` -/

/-- The expirations set after `Db::set` removed the previous pair of `k` (if any). -/
def eraseOldPair (s : State) (k : String) : List (Nat × String) :=
  match s.entries k with
  | some p =>
    match p.expires_at with
    | some w => setRemove s.expirations (w, k)
    | none => s.expirations
  | none => s.expirations

theorem dbSet_entries_self (s : State) (k : String) (v : Bytes) (ttl : Option Nat) (now : Nat) :
    (dbSet s k v ttl now).1.entries k = some ⟨.string v, ttl.map (fun d => now + d)⟩ := by
  cases ttl <;> simp [dbSet, mapInsert]

theorem dbSet_entries_other (s : State) (k : String) (v : Bytes) (ttl : Option Nat) (now : Nat)
    (k' : String) (h : k' ≠ k) :
    (dbSet s k v ttl now).1.entries k' = s.entries k' := by
  cases ttl <;> simp [dbSet, mapInsert, h]

theorem dbSet_shutdown_flag (s : State) (k : String) (v : Bytes) (ttl : Option Nat) (now : Nat) :
    (dbSet s k v ttl now).1.shutdown = s.shutdown := by
  cases ttl <;> simp [dbSet]

theorem dbSet_expirations (s : State) (k : String) (v : Bytes) (ttl : Option Nat) (now : Nat) :
    (dbSet s k v ttl now).1.expirations =
      match ttl with
      | some d => setInsert (eraseOldPair s k) (now + d, k)
      | none => eraseOldPair s k := by
  cases ttl <;> rcases hp : s.entries k with _ | ⟨pd, pe⟩ <;> (try cases pe) <;>
    simp [dbSet, eraseOldPair, setRemove, hp]

theorem mem_eraseOldPair (s : State) (k : String) (hnd : s.expirations.Nodup)
    (x : Nat × String) :
    x ∈ eraseOldPair s k ↔
      x ∈ s.expirations ∧ ¬(x.2 = k ∧ (s.entries k).bind Entry.expires_at = some x.1) := by
  rcases hp : s.entries k with _ | ⟨pd, pe⟩
  · simp [eraseOldPair, hp]
  · cases pe with
    | none => simp [eraseOldPair, hp]
    | some w =>
      simp only [eraseOldPair, hp, setRemove]
      rw [hnd.mem_erase_iff]
      simp [Prod.ext_iff, eq_comm]
      tauto

theorem dbSet_notify (s : State) (k : String) (v : Bytes) (ttl : Option Nat) (now : Nat) :
    (dbSet s k v ttl now).2 = true ↔
      ∃ d, ttl = some d ∧
        (nextExpiration s = none ∨ ∃ e, nextExpiration s = some e ∧ now + d < e) := by
  cases ttl with
  | none => simp [dbSet]
  | some d =>
    cases hne : nextExpiration s with
    | none => simp [dbSet, hne]
    | some e => simp [dbSet, hne, Nat.lt_iff_add_one_le]

theorem dbSet_wf (s : State) (k : String) (v : Bytes) (ttl : Option Nat) (now : Nat)
    (h : s.expirations.Pairwise expLt) :
    ((dbSet s k v ttl now).1.expirations).Pairwise expLt := by
  rw [dbSet_expirations]
  have hbase : (eraseOldPair s k).Pairwise expLt := by
    rcases hp : s.entries k with _ | ⟨pd, pe⟩
    · simpa [eraseOldPair, hp] using h
    · cases pe with
      | none => simpa [eraseOldPair, hp] using h
      | some w =>
        simp only [eraseOldPair, hp, setRemove]
        exact List.Pairwise.sublist (List.erase_sublist _ _) h
  cases ttl with
  | none => exact hbase
  | some d => exact pairwise_setInsert _ _ hbase

/-! ### The expiration-index invariant -/

/-- The cross-structure invariant of the shared state (spec §3): a pair
`(w, k)` is in `expirations` exactly when `k`'s entry exists and its
`expires_at` is exactly `some w` (the `Option.bind` states existence and
exact match at once). -/
def Inv (s : State) : Prop :=
  ∀ w k, (w, k) ∈ s.expirations ↔ (s.entries k).bind Entry.expires_at = some w

/-- The invariant together with the `BTreeSet` representation invariant
(strictly sorted, hence duplicate-free). -/
def InvWF (s : State) : Prop :=
  Inv s ∧ s.expirations.Pairwise expLt

theorem dbSet_preserves_invariant (s : State) (k : String) (v : Bytes) (ttl : Option Nat)
    (now : Nat) (h : InvWF s) : InvWF (dbSet s k v ttl now).1 := by
  obtain ⟨hinv, hwf⟩ := h
  have hnd := expWF_nodup hwf
  refine ⟨?_, dbSet_wf s k v ttl now hwf⟩
  intro w k'
  rw [dbSet_expirations]
  by_cases hk : k' = k
  · rw [hk, dbSet_entries_self]
    cases ttl with
    | none =>
      simp only [Option.map_none']
      rw [mem_eraseOldPair s k hnd]
      constructor
      · rintro ⟨hmem, hnot⟩
        exact absurd ⟨rfl, (hinv w k).mp hmem⟩ hnot
      · intro hb
        simp at hb
    | some d =>
      rw [mem_setInsert, mem_eraseOldPair s k hnd]
      constructor
      · rintro (heq | ⟨hmem, hnot⟩)
        · simp [Prod.ext_iff] at heq
          simp [heq]
        · exact absurd ⟨rfl, (hinv w k).mp hmem⟩ hnot
      · intro hb
        simp at hb
        exact Or.inl (by simp [Prod.ext_iff, hb])
  · rw [dbSet_entries_other s k v ttl now k' hk]
    have hbase : (w, k') ∈ eraseOldPair s k ↔ (s.entries k').bind Entry.expires_at = some w := by
      rw [mem_eraseOldPair s k hnd]
      simp only [hk]
      simp [hinv w k']
    cases ttl with
    | none => exact hbase
    | some d =>
      rw [mem_setInsert]
      constructor
      · rintro (heq | hmem)
        · simp [Prod.ext_iff] at heq
          exact absurd heq.2 hk
        · exact hbase.mp hmem
      · intro hb
        exact Or.inr (hbase.mpr hb)

/-! ### Prefix behavior of the codec primitives

For each reader: success is preserved when the truncation point lies at or
after the bytes it consumed, and truncating strictly inside the consumed
region yields `incomplete` — never a protocol error, never success. -/

theorem getU8_ok_iff {d : List Nat} {pos : Nat} {x : Nat × Nat} :
    getU8 d pos = .ok x ↔ pos < d.length ∧ x = (d.getD pos 0, pos + 1) := by
  unfold getU8
  by_cases h : pos < d.length <;> simp [h, eq_comm]

theorem getD_take_of_lt {l : List Nat} {m i : Nat} (h : i < m) :
    (l.take m).getD i 0 = l.getD i 0 := by
  simp [List.getD_eq_getElem?_getD, List.getElem?_take_of_lt h]

theorem getU8_take_ok {d : List Nat} {pos m b q : Nat}
    (h : getU8 d pos = .ok (b, q)) (hm : q ≤ m) :
    getU8 (d.take m) pos = .ok (b, q) := by
  obtain ⟨hlt, hx⟩ := getU8_ok_iff.mp h
  have hq : q = pos + 1 := congrArg Prod.snd hx
  have hpm : pos < m := by omega
  rw [getU8_ok_iff]
  refine ⟨by simp [List.length_take]; omega, ?_⟩
  rw [hx, getD_take_of_lt hpm]

theorem getU8_take_trunc {d : List Nat} {pos m b q : Nat}
    (h : getU8 d pos = .ok (b, q)) (hm : m < q) :
    getU8 (d.take m) pos = .error .incomplete := by
  obtain ⟨hlt, hx⟩ := getU8_ok_iff.mp h
  have hq : q = pos + 1 := congrArg Prod.snd hx
  unfold getU8
  rw [if_neg]
  simp only [List.length_take]
  omega

theorem peekU8_ok_iff {d : List Nat} {pos : Nat} {c : Nat} :
    peekU8 d pos = .ok c ↔ pos < d.length ∧ c = d.getD pos 0 := by
  unfold peekU8
  by_cases h : pos < d.length <;> simp [h, eq_comm]

theorem peekU8_take_ok {d : List Nat} {pos m c : Nat}
    (h : peekU8 d pos = .ok c) (hm : pos < m) :
    peekU8 (d.take m) pos = .ok c := by
  obtain ⟨hlt, hc⟩ := peekU8_ok_iff.mp h
  rw [peekU8_ok_iff]
  refine ⟨by simp [List.length_take]; omega, ?_⟩
  rw [getD_take_of_lt hm]
  exact hc

theorem peekU8_take_trunc {d : List Nat} {pos m : Nat} (hm : m ≤ pos) :
    peekU8 (d.take m) pos = .error .incomplete := by
  unfold peekU8
  rw [if_neg]
  simp only [List.length_take]
  omega

theorem skip_ok_iff {d : List Nat} {pos n q : Nat} :
    skip d pos n = .ok q ↔ n ≤ d.length - pos ∧ q = pos + n := by
  unfold skip
  by_cases h : n ≤ d.length - pos <;> simp [h, eq_comm]

theorem skip_take_ok {d : List Nat} {pos n q m : Nat}
    (h : skip d pos n = .ok q) (hm : q ≤ m) :
    skip (d.take m) pos n = .ok q := by
  obtain ⟨hn, hq⟩ := skip_ok_iff.mp h
  rw [skip_ok_iff]
  refine ⟨?_, hq⟩
  simp only [List.length_take]
  omega

theorem skip_take_trunc {d : List Nat} {pos n q m : Nat}
    (h : skip d pos n = .ok q) (hn : 0 < n) (hm : m < q) :
    skip (d.take m) pos n = .error .incomplete := by
  obtain ⟨hle, hq⟩ := skip_ok_iff.mp h
  unfold skip
  rw [if_neg]
  simp only [List.length_take]
  omega

theorem crlfScan_some_ge {s : List Nat} : ∀ {i j : Nat}, crlfScan i s = some j → i ≤ j := by
  induction s with
  | nil => intro i j h; simp [crlfScan] at h
  | cons a tail ih =>
    intro i j h
    cases tail with
    | nil => simp [crlfScan] at h
    | cons b rest =>
      by_cases hcr : a = 13 ∧ b = 10
      · simp [crlfScan, hcr] at h
        omega
      · simp only [crlfScan, if_neg hcr] at h
        have := ih h
        omega

theorem crlfScan_some_len {s : List Nat} :
    ∀ {i j : Nat}, crlfScan i s = some j → (j - i) + 2 ≤ s.length := by
  induction s with
  | nil => intro i j h; simp [crlfScan] at h
  | cons a tail ih =>
    intro i j h
    cases tail with
    | nil => simp [crlfScan] at h
    | cons b rest =>
      by_cases hcr : a = 13 ∧ b = 10
      · simp [crlfScan, hcr] at h
        simp [← h]
      · simp only [crlfScan, if_neg hcr] at h
        have h1 := ih h
        have h2 := crlfScan_some_ge h
        simp only [List.length_cons] at h1 ⊢
        omega

theorem crlfScan_take_ok {s : List Nat} :
    ∀ {i j t : Nat}, crlfScan i s = some j → (j - i) + 2 ≤ t →
      crlfScan i (s.take t) = some j := by
  induction s with
  | nil => intro i j t h _; simp [crlfScan] at h
  | cons a tail ih =>
    intro i j t h ht
    cases tail with
    | nil => simp [crlfScan] at h
    | cons b rest =>
      obtain ⟨t2, rfl⟩ : ∃ t2, t = t2 + 2 := ⟨t - 2, by omega⟩
      simp only [List.take_succ_cons]
      by_cases hcr : a = 13 ∧ b = 10
      · simpa [crlfScan, hcr] using by simpa [crlfScan, hcr] using h
      · simp only [crlfScan, if_neg hcr] at h ⊢
        have hge := crlfScan_some_ge h
        have : (b :: List.take t2 rest) = (b :: rest).take (t2 + 1) := by
          simp [List.take_succ_cons]
        rw [this]
        exact ih h (by omega)

theorem crlfScan_take_none {s : List Nat} :
    ∀ {i j t : Nat}, crlfScan i s = some j → t < (j - i) + 2 →
      crlfScan i (s.take t) = none := by
  induction s with
  | nil => intro i j t h _; simp [crlfScan] at h
  | cons a tail ih =>
    intro i j t h ht
    cases tail with
    | nil => simp [crlfScan] at h
    | cons b rest =>
      match t with
      | 0 => simp [crlfScan]
      | 1 => simp [crlfScan]
      | t2 + 2 =>
        simp only [List.take_succ_cons]
        by_cases hcr : a = 13 ∧ b = 10
        · simp [crlfScan, hcr] at h
          omega
        · simp only [crlfScan, if_neg hcr] at h ⊢
          have hge := crlfScan_some_ge h
          have : (b :: List.take t2 rest) = (b :: rest).take (t2 + 1) := by
            simp [List.take_succ_cons]
          rw [this]
          exact ih h (by omega)

theorem getLine_bounds {d : List Nat} {pos : Nat} {line : List Nat} {q : Nat}
    (h : getLine d pos = .ok (line, q)) :
    pos + 2 ≤ q ∧ q ≤ d.length := by
  unfold getLine findCRLF at h
  cases hf : crlfScan pos (d.drop pos) with
  | none => rw [hf] at h; cases h
  | some j =>
    rw [hf] at h
    obtain ⟨-, hq⟩ : line = extractRange d pos j ∧ q = j + 2 := by
      simpa [Prod.ext_iff, eq_comm] using h
    have h1 := crlfScan_some_ge hf
    have h2 := crlfScan_some_len hf
    simp only [List.length_drop] at h2
    omega

theorem getLine_take_ok {d : List Nat} {pos : Nat} {line : List Nat} {q m : Nat}
    (h : getLine d pos = .ok (line, q)) (hm : q ≤ m) :
    getLine (d.take m) pos = .ok (line, q) := by
  unfold getLine findCRLF at h ⊢
  cases hf : crlfScan pos (d.drop pos) with
  | none => rw [hf] at h; cases h
  | some j =>
    rw [hf] at h
    obtain ⟨hline, hq⟩ : line = extractRange d pos j ∧ q = j + 2 := by
      simpa [Prod.ext_iff, eq_comm] using h
    have h1 := crlfScan_some_ge hf
    rw [List.drop_take]
    rw [crlfScan_take_ok hf (by omega)]
    show Except.ok (extractRange (d.take m) pos j, j + 2) = Except.ok (line, q)
    have hext : extractRange (d.take m) pos j = extractRange d pos j := by
      unfold extractRange
      rw [List.drop_take, List.take_take]
      congr 1
      omega
    rw [hext, ← hline, ← hq]

theorem getLine_take_trunc {d : List Nat} {pos : Nat} {line : List Nat} {q m : Nat}
    (h : getLine d pos = .ok (line, q)) (hm : m < q) :
    getLine (d.take m) pos = .error .incomplete := by
  unfold getLine findCRLF at h ⊢
  cases hf : crlfScan pos (d.drop pos) with
  | none => rw [hf] at h; cases h
  | some j =>
    rw [hf] at h
    obtain ⟨-, hq⟩ : line = extractRange d pos j ∧ q = j + 2 := by
      simpa [Prod.ext_iff, eq_comm] using h
    have h1 := crlfScan_some_ge hf
    rw [List.drop_take]
    rw [crlfScan_take_none hf (by omega)]

theorem getDecimal_bounds {d : List Nat} {pos v q : Nat}
    (h : getDecimal d pos = .ok (v, q)) :
    pos + 2 ≤ q ∧ q ≤ d.length := by
  unfold getDecimal at h
  cases hl : getLine d pos with
  | error e => rw [hl] at h; cases h
  | ok lp =>
    obtain ⟨line, q'⟩ := lp
    rw [hl] at h
    cases ha : atoiU64 line with
    | none => simp [ha] at h
    | some v' =>
      simp [ha] at h
      exact h.2 ▸ getLine_bounds hl

theorem getDecimal_take_ok {d : List Nat} {pos v q m : Nat}
    (h : getDecimal d pos = .ok (v, q)) (hm : q ≤ m) :
    getDecimal (d.take m) pos = .ok (v, q) := by
  unfold getDecimal at h ⊢
  cases hl : getLine d pos with
  | error e => rw [hl] at h; cases h
  | ok lp =>
    obtain ⟨line, q'⟩ := lp
    rw [hl] at h
    cases ha : atoiU64 line with
    | none => simp [ha] at h
    | some v' =>
      simp [ha] at h
      obtain ⟨hv, hq⟩ := h
      rw [getLine_take_ok hl (hq ▸ hm)]
      simp [ha, hv, hq]

theorem getDecimal_take_trunc {d : List Nat} {pos v q m : Nat}
    (h : getDecimal d pos = .ok (v, q)) (hm : m < q) :
    getDecimal (d.take m) pos = .error .incomplete := by
  unfold getDecimal at h ⊢
  cases hl : getLine d pos with
  | error e => rw [hl] at h; cases h
  | ok lp =>
    obtain ⟨line, q'⟩ := lp
    rw [hl] at h
    cases ha : atoiU64 line with
    | none => simp [ha] at h
    | some v' =>
      simp [ha] at h
      rw [getLine_take_trunc hl (h.2 ▸ hm)]

/-! ### One frame-step of `Frame::check`

`stepOne` is the body of one `checkRun` iteration: it consumes the tag byte and
the fixed part of one frame, returning the new cursor position together with
the number of nested frames (`*` count) still to be checked.  `checkRun_succ_eq`
proves it characterizes `checkRun`, so the prefix lemmas need to walk the five
tag branches only once. -/

def stepOne (d : List Nat) (pos : Nat) : Except CheckErr (Nat × Nat) :=
  match getU8 d pos with
  | .error e => .error e
  | .ok (b, pos1) =>
    if b = 43 then
      match getLine d pos1 with
      | .error e => .error e
      | .ok (_, pos2) => .ok (0, pos2)
    else if b = 45 then
      match getLine d pos1 with
      | .error e => .error e
      | .ok (_, pos2) => .ok (0, pos2)
    else if b = 58 then
      match getDecimal d pos1 with
      | .error e => .error e
      | .ok (_, pos2) => .ok (0, pos2)
    else if b = 36 then
      match peekU8 d pos1 with
      | .error e => .error e
      | .ok c =>
        if c = 45 then
          match skip d pos1 4 with
          | .error e => .error e
          | .ok pos2 => .ok (0, pos2)
        else
          match getDecimal d pos1 with
          | .error e => .error e
          | .ok (len, pos2) =>
            match skip d pos2 (len + 2) with
            | .error e => .error e
            | .ok pos3 => .ok (0, pos3)
    else if b = 42 then
      match getDecimal d pos1 with
      | .error e => .error e
      | .ok (len, pos2) => .ok (len, pos2)
    else .error .protocol

theorem checkRun_succ_eq (fuel n : Nat) (d : List Nat) (pos : Nat) :
    checkRun (fuel + 1) (n + 1) d pos =
      match stepOne d pos with
      | .error e => .error e
      | .ok (extra, pos2) => checkRun fuel (extra + n) d pos2 := by
  rw [checkRun]
  unfold stepOne
  cases hg : getU8 d pos with
  | error e => rfl
  | ok bp =>
    obtain ⟨b, pos1⟩ := bp
    simp only
    by_cases h43 : b = 43
    · rw [if_pos h43, if_pos h43]
      cases hl : getLine d pos1 with
      | error e => rfl
      | ok lp =>
        obtain ⟨line, pos2⟩ := lp
        simp only [Nat.zero_add]
    · rw [if_neg h43, if_neg h43]
      by_cases h45 : b = 45
      · rw [if_pos h45, if_pos h45]
        cases hl : getLine d pos1 with
        | error e => rfl
        | ok lp =>
          obtain ⟨line, pos2⟩ := lp
          simp only [Nat.zero_add]
      · rw [if_neg h45, if_neg h45]
        by_cases h58 : b = 58
        · rw [if_pos h58, if_pos h58]
          cases hl : getDecimal d pos1 with
          | error e => rfl
          | ok lp =>
            obtain ⟨v, pos2⟩ := lp
            simp only [Nat.zero_add]
        · rw [if_neg h58, if_neg h58]
          by_cases h36 : b = 36
          · rw [if_pos h36, if_pos h36]
            cases hp : peekU8 d pos1 with
            | error e => rfl
            | ok c =>
              simp only
              by_cases hc : c = 45
              · rw [if_pos hc, if_pos hc]
                cases hsk : skip d pos1 4 with
                | error e => rfl
                | ok pos2 => simp only [Nat.zero_add]
              · rw [if_neg hc, if_neg hc]
                cases hd : getDecimal d pos1 with
                | error e => rfl
                | ok lp =>
                  obtain ⟨len, pos2⟩ := lp
                  simp only
                  cases hsk : skip d pos2 (len + 2) with
                  | error e => rfl
                  | ok pos3 => simp only [Nat.zero_add]
          · rw [if_neg h36, if_neg h36]
            by_cases h42 : b = 42
            · rw [if_pos h42, if_pos h42]
              cases hd : getDecimal d pos1 with
              | error e => rfl
              | ok lp =>
                obtain ⟨len, pos2⟩ := lp
                simp only
            · rw [if_neg h42, if_neg h42]

theorem getU8_error_eq {d : List Nat} {pos : Nat} {e : CheckErr}
    (h : getU8 d pos = .error e) : e = .incomplete := by
  unfold getU8 at h
  by_cases hp : pos < d.length <;> simp [hp] at h
  exact h.symm

theorem peekU8_error_eq {d : List Nat} {pos : Nat} {e : CheckErr}
    (h : peekU8 d pos = .error e) : e = .incomplete := by
  unfold peekU8 at h
  by_cases hp : pos < d.length <;> simp [hp] at h
  exact h.symm

theorem skip_error_eq {d : List Nat} {pos n : Nat} {e : CheckErr}
    (h : skip d pos n = .error e) : e = .incomplete := by
  unfold skip at h
  by_cases hp : n ≤ d.length - pos <;> simp [hp] at h
  exact h.symm

theorem getLine_error_eq {d : List Nat} {pos : Nat} {e : CheckErr}
    (h : getLine d pos = .error e) : e = .incomplete := by
  unfold getLine at h
  cases hf : findCRLF d pos with
  | none => rw [hf] at h; simpa [eq_comm] using h
  | some j => rw [hf] at h; cases h

theorem getDecimal_error_eq {d : List Nat} {pos : Nat} {e : CheckErr}
    (h : getDecimal d pos = .error e) : e = .incomplete ∨ e = .protocol := by
  unfold getDecimal at h
  cases hl : getLine d pos with
  | error e' =>
    rw [hl] at h
    simp only [Except.error.injEq] at h
    exact Or.inl (h ▸ getLine_error_eq hl)
  | ok lp =>
    obtain ⟨line, q'⟩ := lp
    rw [hl] at h
    cases ha : atoiU64 line with
    | none => simp [ha] at h; exact Or.inr h.symm
    | some v => simp [ha] at h

/-- One frame-step either fails with `incomplete` or `protocol` (never the
fuel marker), or succeeds having consumed at least one byte, with the new
cursor still inside the buffer. -/
theorem stepOne_spec (d : List Nat) (pos : Nat) :
    (stepOne d pos = .error .incomplete ∨ stepOne d pos = .error .protocol)
    ∨ ∃ extra pos2, stepOne d pos = .ok (extra, pos2) ∧ pos < pos2 ∧ pos2 ≤ d.length := by
  unfold stepOne
  cases hg : getU8 d pos with
  | error e => exact Or.inl (Or.inl (by rw [getU8_error_eq hg]))
  | ok bp =>
    obtain ⟨b, pos1⟩ := bp
    obtain ⟨hblt, hx⟩ := getU8_ok_iff.mp hg
    have hpos1 : pos1 = pos + 1 := congrArg Prod.snd hx
    simp only
    by_cases h43 : b = 43
    · rw [if_pos h43]
      cases hl : getLine d pos1 with
      | error e => exact Or.inl (Or.inl (by rw [getLine_error_eq hl]))
      | ok lp =>
        obtain ⟨line, pos2⟩ := lp
        have hb := getLine_bounds hl
        exact Or.inr ⟨0, pos2, rfl, by omega, hb.2⟩
    · rw [if_neg h43]
      by_cases h45 : b = 45
      · rw [if_pos h45]
        cases hl : getLine d pos1 with
        | error e => exact Or.inl (Or.inl (by rw [getLine_error_eq hl]))
        | ok lp =>
          obtain ⟨line, pos2⟩ := lp
          have hb := getLine_bounds hl
          exact Or.inr ⟨0, pos2, rfl, by omega, hb.2⟩
      · rw [if_neg h45]
        by_cases h58 : b = 58
        · rw [if_pos h58]
          cases hd : getDecimal d pos1 with
          | error e =>
            rcases getDecimal_error_eq hd with h' | h'
            · exact Or.inl (Or.inl (by rw [h']))
            · exact Or.inl (Or.inr (by rw [h']))
          | ok lp =>
            obtain ⟨v, pos2⟩ := lp
            have hb := getDecimal_bounds hd
            exact Or.inr ⟨0, pos2, rfl, by omega, hb.2⟩
        · rw [if_neg h58]
          by_cases h36 : b = 36
          · rw [if_pos h36]
            cases hp : peekU8 d pos1 with
            | error e => exact Or.inl (Or.inl (by rw [peekU8_error_eq hp]))
            | ok c =>
              simp only
              by_cases hc : c = 45
              · rw [if_pos hc]
                cases hsk : skip d pos1 4 with
                | error e => exact Or.inl (Or.inl (by rw [skip_error_eq hsk]))
                | ok pos2 =>
                  obtain ⟨hle, hq⟩ := skip_ok_iff.mp hsk
                  exact Or.inr ⟨0, pos2, rfl, by omega, by omega⟩
              · rw [if_neg hc]
                cases hd : getDecimal d pos1 with
                | error e =>
                  rcases getDecimal_error_eq hd with h' | h'
                  · exact Or.inl (Or.inl (by rw [h']))
                  · exact Or.inl (Or.inr (by rw [h']))
                | ok lp =>
                  obtain ⟨len2, pos2⟩ := lp
                  have hb2 := getDecimal_bounds hd
                  simp only
                  cases hsk : skip d pos2 (len2 + 2) with
                  | error e => exact Or.inl (Or.inl (by rw [skip_error_eq hsk]))
                  | ok pos3 =>
                    obtain ⟨hle, hq⟩ := skip_ok_iff.mp hsk
                    exact Or.inr ⟨0, pos3, rfl, by omega, by omega⟩
          · rw [if_neg h36]
            by_cases h42 : b = 42
            · rw [if_pos h42]
              cases hd : getDecimal d pos1 with
              | error e =>
                rcases getDecimal_error_eq hd with h' | h'
                · exact Or.inl (Or.inl (by rw [h']))
                · exact Or.inl (Or.inr (by rw [h']))
              | ok lp =>
                obtain ⟨len2, pos2⟩ := lp
                have hb := getDecimal_bounds hd
                exact Or.inr ⟨len2, pos2, rfl, by omega, hb.2⟩
            · rw [if_neg h42]
              exact Or.inl (Or.inr rfl)

/-- A successful frame-step is reproduced on any truncation that keeps the
consumed bytes. -/
theorem stepOne_take_ok {d : List Nat} {pos m extra pos2 : Nat}
    (h : stepOne d pos = .ok (extra, pos2)) (hm : pos2 ≤ m) :
    stepOne (d.take m) pos = .ok (extra, pos2) := by
  unfold stepOne at h ⊢
  cases hg : getU8 d pos with
  | error e => rw [hg] at h; cases h
  | ok bp =>
    obtain ⟨b, pos1⟩ := bp
    rw [hg] at h
    simp only at h
    have hpos1 : pos1 = pos + 1 := congrArg Prod.snd (getU8_ok_iff.mp hg).2
    by_cases h43 : b = 43
    · rw [if_pos h43] at h
      cases hl : getLine d pos1 with
      | error e => rw [hl] at h; cases h
      | ok lp =>
        obtain ⟨line, q2⟩ := lp
        rw [hl] at h
        simp only [Except.ok.injEq, Prod.mk.injEq] at h
        have hb := getLine_bounds hl
        rw [getU8_take_ok hg (by omega)]
        simp only
        rw [if_pos h43, getLine_take_ok hl (by omega)]
        simp only [h.1, h.2]
    · rw [if_neg h43] at h
      by_cases h45 : b = 45
      · rw [if_pos h45] at h
        cases hl : getLine d pos1 with
        | error e => rw [hl] at h; cases h
        | ok lp =>
          obtain ⟨line, q2⟩ := lp
          rw [hl] at h
          simp only [Except.ok.injEq, Prod.mk.injEq] at h
          have hb := getLine_bounds hl
          rw [getU8_take_ok hg (by omega)]
          simp only
          rw [if_neg h43, if_pos h45, getLine_take_ok hl (by omega)]
          simp only [h.1, h.2]
      · rw [if_neg h45] at h
        by_cases h58 : b = 58
        · rw [if_pos h58] at h
          cases hd : getDecimal d pos1 with
          | error e => rw [hd] at h; cases h
          | ok lp =>
            obtain ⟨v, q2⟩ := lp
            rw [hd] at h
            simp only [Except.ok.injEq, Prod.mk.injEq] at h
            have hb := getDecimal_bounds hd
            rw [getU8_take_ok hg (by omega)]
            simp only
            rw [if_neg h43, if_neg h45, if_pos h58, getDecimal_take_ok hd (by omega)]
            simp only [h.1, h.2]
        · rw [if_neg h58] at h
          by_cases h36 : b = 36
          · rw [if_pos h36] at h
            cases hp : peekU8 d pos1 with
            | error e => rw [hp] at h; cases h
            | ok c =>
              rw [hp] at h
              simp only at h
              by_cases hc : c = 45
              · rw [if_pos hc] at h
                cases hsk : skip d pos1 4 with
                | error e => rw [hsk] at h; cases h
                | ok q2 =>
                  rw [hsk] at h
                  simp only [Except.ok.injEq, Prod.mk.injEq] at h
                  obtain ⟨hle, hq⟩ := skip_ok_iff.mp hsk
                  rw [getU8_take_ok hg (by omega)]
                  simp only
                  rw [if_neg h43, if_neg h45, if_neg h58, if_pos h36,
                      peekU8_take_ok hp (by omega)]
                  simp only
                  rw [if_pos hc, skip_take_ok hsk (by omega)]
                  simp only [h.1, h.2]
              · rw [if_neg hc] at h
                cases hd : getDecimal d pos1 with
                | error e => rw [hd] at h; cases h
                | ok lp =>
                  obtain ⟨len2, q2⟩ := lp
                  rw [hd] at h
                  simp only at h
                  cases hsk : skip d q2 (len2 + 2) with
                  | error e => rw [hsk] at h; cases h
                  | ok q3 =>
                    rw [hsk] at h
                    simp only [Except.ok.injEq, Prod.mk.injEq] at h
                    have hb2 := getDecimal_bounds hd
                    obtain ⟨hle, hq⟩ := skip_ok_iff.mp hsk
                    rw [getU8_take_ok hg (by omega)]
                    simp only
                    rw [if_neg h43, if_neg h45, if_neg h58, if_pos h36,
                        peekU8_take_ok hp (by omega)]
                    simp only
                    rw [if_neg hc, getDecimal_take_ok hd (by omega)]
                    simp only
                    rw [skip_take_ok hsk (by omega)]
                    simp only [h.1, h.2]
          · rw [if_neg h36] at h
            by_cases h42 : b = 42
            · rw [if_pos h42] at h
              cases hd : getDecimal d pos1 with
              | error e => rw [hd] at h; cases h
              | ok lp =>
                obtain ⟨len2, q2⟩ := lp
                rw [hd] at h
                simp only [Except.ok.injEq, Prod.mk.injEq] at h
                have hb := getDecimal_bounds hd
                rw [getU8_take_ok hg (by omega)]
                simp only
                rw [if_neg h43, if_neg h45, if_neg h58, if_neg h36, if_pos h42,
                    getDecimal_take_ok hd (by omega)]
                simp only [h.1, h.2]
            · rw [if_neg h42] at h
              cases h

/-- Truncating strictly inside the bytes consumed by a successful frame-step
turns it into `incomplete`. -/
theorem stepOne_take_trunc {d : List Nat} {pos m extra pos2 : Nat}
    (h : stepOne d pos = .ok (extra, pos2)) (hm : m < pos2) :
    stepOne (d.take m) pos = .error .incomplete := by
  unfold stepOne at h ⊢
  cases hg : getU8 d pos with
  | error e => rw [hg] at h; cases h
  | ok bp =>
    obtain ⟨b, pos1⟩ := bp
    rw [hg] at h
    simp only at h
    have hpos1 : pos1 = pos + 1 := congrArg Prod.snd (getU8_ok_iff.mp hg).2
    by_cases hm1 : m < pos1
    · rw [getU8_take_trunc hg hm1]
    · push_neg at hm1
      rw [getU8_take_ok hg hm1]
      simp only
      by_cases h43 : b = 43
      · rw [if_pos h43] at h ⊢
        cases hl : getLine d pos1 with
        | error e => rw [hl] at h; cases h
        | ok lp =>
          obtain ⟨line, q2⟩ := lp
          rw [hl] at h
          simp only [Except.ok.injEq, Prod.mk.injEq] at h
          rw [getLine_take_trunc hl (by omega)]
      · rw [if_neg h43] at h ⊢
        by_cases h45 : b = 45
        · rw [if_pos h45] at h ⊢
          cases hl : getLine d pos1 with
          | error e => rw [hl] at h; cases h
          | ok lp =>
            obtain ⟨line, q2⟩ := lp
            rw [hl] at h
            simp only [Except.ok.injEq, Prod.mk.injEq] at h
            rw [getLine_take_trunc hl (by omega)]
        · rw [if_neg h45] at h ⊢
          by_cases h58 : b = 58
          · rw [if_pos h58] at h ⊢
            cases hd : getDecimal d pos1 with
            | error e => rw [hd] at h; cases h
            | ok lp =>
              obtain ⟨v, q2⟩ := lp
              rw [hd] at h
              simp only [Except.ok.injEq, Prod.mk.injEq] at h
              rw [getDecimal_take_trunc hd (by omega)]
          · rw [if_neg h58] at h ⊢
            by_cases h36 : b = 36
            · rw [if_pos h36] at h ⊢
              cases hp : peekU8 d pos1 with
              | error e => rw [hp] at h; cases h
              | ok c =>
                rw [hp] at h
                simp only at h
                by_cases hmp : pos1 < m
                · rw [peekU8_take_ok hp hmp]
                  simp only
                  by_cases hc : c = 45
                  · rw [if_pos hc] at h ⊢
                    cases hsk : skip d pos1 4 with
                    | error e => rw [hsk] at h; cases h
                    | ok q2 =>
                      rw [hsk] at h
                      simp only [Except.ok.injEq, Prod.mk.injEq] at h
                      rw [skip_take_trunc hsk (by omega) (by omega)]
                  · rw [if_neg hc] at h ⊢
                    cases hd : getDecimal d pos1 with
                    | error e => rw [hd] at h; cases h
                    | ok lp =>
                      obtain ⟨len2, q2⟩ := lp
                      rw [hd] at h
                      simp only at h
                      cases hsk : skip d q2 (len2 + 2) with
                      | error e => rw [hsk] at h; cases h
                      | ok q3 =>
                        rw [hsk] at h
                        simp only [Except.ok.injEq, Prod.mk.injEq] at h
                        by_cases hmq2 : m < q2
                        · rw [getDecimal_take_trunc hd hmq2]
                        · push_neg at hmq2
                          rw [getDecimal_take_ok hd hmq2]
                          simp only
                          rw [skip_take_trunc hsk (by omega) (by omega)]
                · push_neg at hmp
                  rw [peekU8_take_trunc hmp]
            · rw [if_neg h36] at h ⊢
              by_cases h42 : b = 42
              · rw [if_pos h42] at h ⊢
                cases hd : getDecimal d pos1 with
                | error e => rw [hd] at h; cases h
                | ok lp =>
                  obtain ⟨len2, q2⟩ := lp
                  rw [hd] at h
                  simp only [Except.ok.injEq, Prod.mk.injEq] at h
                  rw [getDecimal_take_trunc hd (by omega)]
              · rw [if_neg h42] at h
                cases h

theorem checkRun_pos_le : ∀ (fuel n : Nat) (d : List Nat) (pos q : Nat),
    checkRun fuel n d pos = .ok q → pos ≤ q := by
  intro fuel
  induction fuel with
  | zero =>
    intro n d pos q h
    cases n with
    | zero => simp [checkRun] at h; omega
    | succ n => simp [checkRun] at h
  | succ fuel ih =>
    intro n d pos q h
    cases n with
    | zero => simp [checkRun] at h; omega
    | succ n =>
      rw [checkRun_succ_eq] at h
      cases hs : stepOne d pos with
      | error e => rw [hs] at h; cases h
      | ok ep =>
        obtain ⟨extra, pos2⟩ := ep
        rw [hs] at h
        simp only at h
        rcases stepOne_spec d pos with (h1 | h1) | ⟨extra', pos2', hso, hlt, hle⟩
        · rw [h1] at hs; cases hs
        · rw [h1] at hs; cases hs
        · rw [hs] at hso
          simp only [Except.ok.injEq, Prod.mk.injEq] at hso
          have := ih (extra + n) d pos2 q h
          omega

theorem checkRun_no_fuelOut : ∀ (fuel n : Nat) (d : List Nat) (pos : Nat),
    d.length - pos < fuel → checkRun fuel n d pos ≠ .error .fuelOut := by
  intro fuel
  induction fuel with
  | zero => intro n d pos h; omega
  | succ fuel ih =>
    intro n d pos h
    cases n with
    | zero => simp [checkRun]
    | succ n =>
      rw [checkRun_succ_eq]
      rcases stepOne_spec d pos with (h1 | h1) | ⟨extra, pos2, hso, hlt, hle⟩
      · rw [h1]; simp
      · rw [h1]; simp
      · rw [hso]
        simp only
        exact ih (extra + n) d pos2 (by omega)

theorem checkRun_fuel_mono : ∀ (fuel n : Nat) (d : List Nat) (pos : Nat),
    checkRun fuel n d pos ≠ .error .fuelOut →
    checkRun (fuel + 1) n d pos = checkRun fuel n d pos := by
  intro fuel
  induction fuel with
  | zero =>
    intro n d pos h
    cases n with
    | zero => simp [checkRun]
    | succ n => simp [checkRun] at h
  | succ fuel ih =>
    intro n d pos h
    cases n with
    | zero => simp [checkRun]
    | succ n =>
      rw [checkRun_succ_eq fuel n d pos] at h
      rw [checkRun_succ_eq (fuel + 1) n d pos, checkRun_succ_eq fuel n d pos]
      cases hs : stepOne d pos with
      | error e => rfl
      | ok ep =>
        obtain ⟨extra, pos2⟩ := ep
        rw [hs] at h
        simp only at h ⊢
        exact ih (extra + n) d pos2 h

theorem checkRun_fuel_ge (fuel k n : Nat) (d : List Nat) (pos : Nat)
    (h : checkRun fuel n d pos ≠ .error .fuelOut) :
    checkRun (fuel + k) n d pos = checkRun fuel n d pos := by
  induction k with
  | zero => rfl
  | succ k ih =>
    have h' : checkRun (fuel + k) n d pos ≠ .error .fuelOut := by rw [ih]; exact h
    show checkRun ((fuel + k) + 1) n d pos = checkRun fuel n d pos
    rw [checkRun_fuel_mono (fuel + k) n d pos h', ih]

/-- The two directions of prefix behavior for the full checker: a successful
check is reproduced on any truncation keeping the consumed bytes, and any
truncation strictly inside the consumed bytes yields `incomplete`. -/
theorem checkRun_take : ∀ (fuel n : Nat) (d : List Nat) (pos q m : Nat),
    checkRun fuel n d pos = .ok q →
    (q ≤ m → checkRun fuel n (d.take m) pos = .ok q)
    ∧ (pos ≤ m → m < q → checkRun fuel n (d.take m) pos = .error .incomplete) := by
  intro fuel
  induction fuel with
  | zero =>
    intro n d pos q m h
    cases n with
    | zero =>
      simp only [checkRun, Except.ok.injEq] at h
      exact ⟨fun _ => by simp [checkRun, h], fun h1 h2 => absurd h2 (by omega)⟩
    | succ n => simp [checkRun] at h
  | succ fuel ih =>
    intro n d pos q m h
    cases n with
    | zero =>
      simp only [checkRun, Except.ok.injEq] at h
      exact ⟨fun _ => by simp [checkRun, h], fun h1 h2 => absurd h2 (by omega)⟩
    | succ n =>
      rw [checkRun_succ_eq] at h
      cases hs : stepOne d pos with
      | error e => rw [hs] at h; cases h
      | ok ep =>
        obtain ⟨extra, pos2⟩ := ep
        rw [hs] at h
        simp only at h
        have hpos2q : pos2 ≤ q := checkRun_pos_le fuel (extra + n) d pos2 q h
        constructor
        · intro hqm
          rw [checkRun_succ_eq, stepOne_take_ok hs (by omega)]
          simp only
          exact (ih (extra + n) d pos2 q m h).1 hqm
        · intro hpm hmq
          by_cases hm2 : m < pos2
          · rw [checkRun_succ_eq, stepOne_take_trunc hs hm2]
          · push_neg at hm2
            rw [checkRun_succ_eq, stepOne_take_ok hs hm2]
            simp only
            exact (ih (extra + n) d pos2 q m h).2 hm2 hmq

/-- Shape of a non-panicking `Db::incrby`: expirations and the shutdown flag
are untouched, and every entry's `expires_at` (and existence) is preserved —
only the data bytes of a numeric `String` entry may change. -/
theorem dbIncrby_ok_shape (s : State) (k : String) (δ : Int) (s' : State) (r : Option Bytes)
    (hok : dbIncrby s k δ = .ok (s', r)) :
    s'.expirations = s.expirations ∧ s'.shutdown = s.shutdown ∧
      ∀ k', (s'.entries k').bind Entry.expires_at = (s.entries k').bind Entry.expires_at := by
  rcases hp : s.entries k with _ | ⟨pd, pe⟩
  · simp [dbIncrby, hp] at hok
    obtain ⟨rfl, -⟩ := hok
    exact ⟨rfl, rfl, fun _ => rfl⟩
  · cases pd with
    | string b =>
      cases hb : bytesToI64 b with
      | none => simp [dbIncrby, hp, hb] at hok
      | some n =>
        cases hb2 : bytesToI64 (intToDecimalBytes (n + δ)) with
        | none => simp [dbIncrby, hp, hb, hb2, mapInsert] at hok
        | some m =>
          simp [dbIncrby, hp, hb, hb2, mapInsert] at hok
          obtain ⟨rfl, -⟩ := hok
          refine ⟨rfl, rfl, fun k' => ?_⟩
          by_cases hk : k' = k <;> simp [mapInsert, hk, hp]
    | list l =>
      simp [dbIncrby, hp] at hok
      obtain ⟨rfl, -⟩ := hok
      exact ⟨rfl, rfl, fun _ => rfl⟩
    | set st =>
      simp [dbIncrby, hp] at hok
      obtain ⟨rfl, -⟩ := hok
      exact ⟨rfl, rfl, fun _ => rfl⟩
    | hash hh =>
      simp [dbIncrby, hp] at hok
      obtain ⟨rfl, -⟩ := hok
      exact ⟨rfl, rfl, fun _ => rfl⟩

theorem dbIncrby_preserves_invariant (s : State) (k : String) (δ : Int) (s' : State)
    (r : Option Bytes) (h : InvWF s) (hok : dbIncrby s k δ = .ok (s', r)) : InvWF s' := by
  obtain ⟨he, -, hent⟩ := dbIncrby_ok_shape s k δ s' r hok
  obtain ⟨hinv, hwf⟩ := h
  refine ⟨fun w k' => ?_, he ▸ hwf⟩
  rw [he, hent k']
  exact hinv w k'

/-- Shape of `Db::push`: expirations and the shutdown flag are untouched, and
every entry's `expires_at` is preserved (a freshly seeded list has none). -/
theorem dbPush_shape (s : State) (k : String) (vs : List String) (right : Bool) :
    (dbPush s k vs right).expirations = s.expirations
    ∧ (dbPush s k vs right).shutdown = s.shutdown
    ∧ ∀ k', ((dbPush s k vs right).entries k').bind Entry.expires_at
        = (s.entries k').bind Entry.expires_at := by
  rcases hp : s.entries k with _ | ⟨pd, pe⟩
  · refine ⟨by simp [dbPush, hp], by simp [dbPush, hp], fun k' => ?_⟩
    by_cases hk : k' = k <;> simp [dbPush, hp, mapInsert, hk]
  · cases pd with
    | list l =>
      refine ⟨by simp [dbPush, hp], by simp [dbPush, hp], fun k' => ?_⟩
      by_cases hk : k' = k <;> simp [dbPush, hp, mapInsert, hk]
    | string b => simp [dbPush, hp]
    | set st => simp [dbPush, hp]
    | hash hh => simp [dbPush, hp]

theorem dbPush_preserves_invariant (s : State) (k : String) (vs : List String) (right : Bool)
    (h : InvWF s) : InvWF (dbPush s k vs right) := by
  obtain ⟨he, -, hent⟩ := dbPush_shape s k vs right
  obtain ⟨hinv, hwf⟩ := h
  refine ⟨fun w k' => ?_, he ▸ hwf⟩
  rw [he, hent k']
  exact hinv w k'

/-- The invariant, stated for the components carried through the sweep loop. -/
def InvP (en : String → Option Entry) (xs : List (Nat × String)) : Prop :=
  ∀ w k, (w, k) ∈ xs ↔ (en k).bind Entry.expires_at = some w

theorem purgeLoop_preserves (now : Nat) :
    ∀ (xs : List (Nat × String)) (en : String → Option Entry),
      InvP en xs → xs.Pairwise expLt →
      InvP (purgeLoop now en xs).1 (purgeLoop now en xs).2.1
      ∧ ((purgeLoop now en xs).2.1).Pairwise expLt := by
  intro xs
  induction xs with
  | nil =>
    intro en hi hw
    exact ⟨hi, hw⟩
  | cons p rest ih =>
    intro en hi hw
    obtain ⟨w, k⟩ := p
    by_cases hnow : w > now
    · simp only [purgeLoop, if_pos hnow]
      exact ⟨hi, hw⟩
    · simp only [purgeLoop, if_neg hnow]
      apply ih
      · intro w' k'
        by_cases hk : k' = k
        · rw [hk]
          simp only [mapRemove, if_pos rfl, Option.none_bind]
          constructor
          · intro hmem
            have hw' := (hi w' k).mp (List.mem_cons_of_mem _ hmem)
            have hwk := (hi w k).mp (List.mem_cons_self _ _)
            have hww : w' = w := by
              rw [hw'] at hwk
              exact Option.some.injEq _ _ ▸ hwk
            rw [hww] at hmem
            have := (List.pairwise_cons.mp hw).1 (w, k) hmem
            exact absurd rfl (expLt_ne this)
          · intro hfalse
            exact absurd hfalse (by simp)
        · simp only [mapRemove, if_neg hk]
          rw [← hi w' k']
          constructor
          · exact fun h => List.mem_cons_of_mem _ h
          · intro h
            rcases List.mem_cons.mp h with heq | h
            · exact absurd (congrArg Prod.snd heq) hk
            · exact h
      · exact (List.pairwise_cons.mp hw).2

theorem purge_preserves_invariant (s : State) (now : Nat) (h : InvWF s) :
    InvWF (purgeExpiredKeys s now).1 := by
  obtain ⟨hinv, hwf⟩ := h
  by_cases hs : s.shutdown
  · simpa [purgeExpiredKeys, hs] using And.intro hinv hwf
  · have hp := purgeLoop_preserves now s.expirations s.entries hinv hwf
    simp only [purgeExpiredKeys, if_neg hs]
    exact ⟨hp.1, hp.2⟩

theorem shutdown_preserves_invariant (s : State) (h : InvWF s) :
    InvWF (shutdownPurgeTask s) := by
  obtain ⟨hinv, hwf⟩ := h
  exact ⟨fun w k => hinv w k, hwf⟩

/-! ## Claim theorems -/

/-- C1: the claim says `get(k)` on a never-written key returns none without
panicking and the GET command replies Null.  The code disagrees: `Db::get`
ends its map lookup with `.unwrap()`, so an absent key panics the connection
task before any reply is produced (first two conjuncts).  The remaining
conjuncts evaluate the parts of the claim the code does satisfy: a stored
`String` is returned byte-for-byte, and a stored non-`String` (here a `List`)
yields none / a `Null` reply without panicking. -/
theorem get_absent_key_panics :
    dbGet State.initial "missing" = .panicked
    ∧ getApply State.initial "missing" = .panicked
    ∧ dbGet (stateWith "k" (.string (strToBytes "hello"))) "k" = .ok (some (strToBytes "hello"))
    ∧ getApply (stateWith "k" (.string (strToBytes "hello"))) "k" = .ok (.bulk (strToBytes "hello"))
    ∧ dbGet (stateWith "l" (.list [strToBytes "a"])) "l" = .ok none
    ∧ getApply (stateWith "l" (.list [strToBytes "a"])) "l" = .ok .null :=
  ⟨rfl, rfl, rfl, rfl, rfl, rfl⟩

/-- C2: the claim says `incrby` never panics and follows an error path on
non-parsing input.  The code disagrees: on a key holding the non-numeric
string `"abc"`, `Db::incrby` runs `bytes_to_i64(..).unwrap()` and panics
(first two conjuncts).  The remaining conjuncts evaluate the parts the code
does satisfy: an absent key takes the error path (`Some("error")`, no panic),
and a numeric string `"10"` incremented by 5 is replaced by the decimal text
`"15"`. -/
theorem incrby_non_numeric_panics :
    dbIncrby (stateWith "k" (.string (strToBytes "abc"))) "k" 1 = .panicked
    ∧ incrbyApply (stateWith "k" (.string (strToBytes "abc"))) "k" 1 = .panicked
    ∧ dbIncrby State.initial "nope" 3 = .ok (State.initial, some errorBytes)
    ∧ (dbIncrby (stateWith "n" (.string (strToBytes "10"))) "n" 5 =
        .ok ({ entries := mapInsert (stateWith "n" (.string (strToBytes "10"))).entries "n"
                 ⟨.string (strToBytes "15"), none⟩,
               expirations := [], shutdown := false }, some okBytes)) :=
  ⟨rfl, rfl, rfl, rfl⟩

/-- C3: the claim says every constructible Message round-trips through the
writer and `check`/`parse`.  The code disagrees for two of the variants:
`write_value` emits prefix byte `#` for `Error` and `=` for the signed
`Integer`, while `Frame::check` accepts only `+ - : $ *`, so the written bytes
are rejected as a protocol error and `parse` is never reached. -/
theorem write_error_frame_rejected_by_check :
    writeFrame (.error (strToBytes "oops")) = .ok (strToBytes "#oops" ++ CRLF)
    ∧ frameCheck (strToBytes "#oops" ++ CRLF) = .error .protocol
    ∧ writeFrame (.integer 5) = .ok (strToBytes "=5" ++ CRLF)
    ∧ frameCheck (strToBytes "=5" ++ CRLF) = .error .protocol :=
  ⟨rfl, rfl, rfl, rfl⟩

/-- C4: for every buffer on which `Frame::check` succeeds after consuming `q`
bytes (in particular every valid wire encoding of a message, where `q` is its
length), truncating the buffer at any byte boundary strictly before `q` makes
`check` return `Incomplete` — never a protocol error, never success, and the
total model has no panic.  The embedding passes the cursor functionally, so a
truncated run reports `incomplete` without any consumed-position side effect:
retrying on the same buffer with more bytes appended starts from the same
cursor, matching `Connection::parse_frame`, which advances the buffer only
after a successful `check`. -/
theorem frame_check_truncated_is_incomplete (d : List Nat) (q m : Nat)
    (hok : frameCheck d = .ok q) (hm : m < q) :
    frameCheck (d.take m) = .error .incomplete := by
  unfold frameCheck at hok ⊢
  have htr := (checkRun_take (d.length + 1) 1 d 0 q m hok).2 (Nat.zero_le m) hm
  have hlen : (d.take m).length ≤ d.length := by
    rw [List.length_take]; omega
  have hnf : checkRun ((d.take m).length + 1) 1 (d.take m) 0 ≠ .error .fuelOut :=
    checkRun_no_fuelOut ((d.take m).length + 1) 1 (d.take m) 0 (by omega)
  have hge := checkRun_fuel_ge ((d.take m).length + 1) (d.length - (d.take m).length) 1
    (d.take m) 0 hnf
  have heq : (d.take m).length + 1 + (d.length - (d.take m).length) = d.length + 1 := by
    omega
  rw [heq] at hge
  rw [← hge]
  exact htr

/-- Witness for `frame_check_truncated_is_incomplete`: the bulk frame
`$2\r\nab\r\n` (8 bytes) truncated after 3 bytes. -/
theorem frame_check_truncated_is_incomplete_witness :
    frameCheck (strToBytes "$2" ++ CRLF ++ strToBytes "ab" ++ CRLF) = .ok 8
    ∧ (3 : Nat) < 8
    ∧ frameCheck ((strToBytes "$2" ++ CRLF ++ strToBytes "ab" ++ CRLF).take 3)
        = .error .incomplete :=
  ⟨rfl, by omega,
   frame_check_truncated_is_incomplete (strToBytes "$2" ++ CRLF ++ strToBytes "ab" ++ CRLF)
     8 3 rfl (by omega)⟩

/-- C7: pushing to an absent key seeds a fresh `List` with no expiration:
front-insertion (`toRight = false`) stores the reverse of the inputs — exactly
the result of pushing each value individually to the front in order — while
back-insertion (`toRight = true`) stores them in the given order, the result
of pushing each individually to the back.  The concrete conjuncts check the
front elements after pushing `["a","b"]` both ways. -/
theorem push_absent_seeds_list :
    (∀ (s : State) (k : String) (vs : List String),
      s.entries k = none →
      (dbPush s k vs false).entries k = some ⟨.list ((vs.map strToBytes).reverse), none⟩
      ∧ (vs.map strToBytes).reverse = (vs.map strToBytes).foldl (fun a v => v :: a) []
      ∧ (dbPush s k vs true).entries k = some ⟨.list (vs.map strToBytes), none⟩
      ∧ vs.map strToBytes = (vs.map strToBytes).foldl (fun a v => a ++ [v]) [])
    ∧ (dbPush State.initial "l2" ["a", "b"] false).entries "l2"
        = some ⟨.list [strToBytes "b", strToBytes "a"], none⟩
    ∧ [strToBytes "b", strToBytes "a"].head? = some (strToBytes "b")
    ∧ (dbPush State.initial "l" ["a", "b"] true).entries "l"
        = some ⟨.list [strToBytes "a", strToBytes "b"], none⟩
    ∧ [strToBytes "a", strToBytes "b"].head? = some (strToBytes "a") := by
  refine ⟨fun s k vs hk => ⟨?_, ?_, ?_, ?_⟩, rfl, rfl, rfl, rfl⟩
  · simp [dbPush, hk, mapInsert]
  · rw [foldl_front_insert]; simp
  · simp [dbPush, hk, mapInsert]
  · rw [foldl_back_insert]; simp

/-- Witness for `push_absent_seeds_list` at the empty store and `vs = ["x","y"]`. -/
theorem push_absent_seeds_list_witness :
    State.initial.entries "w" = none
    ∧ ((dbPush State.initial "w" ["x", "y"] false).entries "w"
         = some ⟨.list [strToBytes "y", strToBytes "x"], none⟩) := by
  refine ⟨rfl, ?_⟩
  have h := push_absent_seeds_list.1 State.initial "w" ["x", "y"] rfl
  simpa using h.1

/-- C8 counterexample: the claim says a type-mismatched `incrby`/`push` on an
existing key is answered with an `Error` reply, not `Simple("OK")`.  On a key
holding a `List`, `Incrby::apply` replies exactly `Simple("OK")` (and likewise
`Push::apply` on a key holding a `Set`), and that frame is not an `Error`. -/
theorem type_mismatch_replies_ok_counterexample :
    incrbyApply (stateWith "k" (.list [strToBytes "a"])) "k" 1
      = .ok (stateWith "k" (.list [strToBytes "a"]), .simple okBytes)
    ∧ pushApply (stateWith "s" (.set [])) "s" ["x"] true
      = (stateWith "s" (.set []), .simple okBytes)
    ∧ (Frame.simple okBytes).isErr = false :=
  ⟨rfl, rfl, rfl⟩

/-- C8 amended: a type-mismatched `incrby` (existing key, non-`String` data)
and a type-mismatched `push` (existing key, non-`List` data) are both answered
with `Simple("OK")` — the mismatch is never surfaced as an `Error` reply.
(`incrby` on a non-numeric `String` panics instead of replying, see
`incrby_non_numeric_panics`.) -/
theorem type_mismatch_replies_ok :
    (∀ (s : State) (k : String) (e : Entry) (δ : Int),
      s.entries k = some e → e.data.isString = false →
      incrbyApply s k δ = .ok (s, .simple okBytes) ∧ (Frame.simple okBytes).isErr = false)
    ∧ (∀ (s : State) (k : String) (e : Entry) (vs : List String) (r : Bool),
      s.entries k = some e → e.data.isList = false →
      pushApply s k vs r = (s, .simple okBytes)) := by
  constructor
  · intro s k e δ hk hne
    exact ⟨by simp [incrbyApply, dbIncrby_not_string s k e δ hk hne], rfl⟩
  · intro s k e vs r hk hnl
    simp [pushApply, dbPush_not_list s k e vs r hk hnl]

/-- Witness for `type_mismatch_replies_ok` on a key holding a `Hash`. -/
theorem type_mismatch_replies_ok_witness :
    (stateWith "h" (.hash [])).entries "h" = some ⟨.hash [], none⟩
    ∧ (DbData.hash []).isString = false
    ∧ (DbData.hash []).isList = false
    ∧ incrbyApply (stateWith "h" (.hash [])) "h" 2
        = .ok (stateWith "h" (.hash []), .simple okBytes)
    ∧ pushApply (stateWith "h" (.hash [])) "h" ["v"] false
        = (stateWith "h" (.hash []), .simple okBytes) := by
  refine ⟨rfl, rfl, rfl, ?_, ?_⟩
  · exact (type_mismatch_replies_ok.1 (stateWith "h" (.hash [])) "h" ⟨.hash [], none⟩ 2 rfl rfl).1
  · exact type_mismatch_replies_ok.2 (stateWith "h" (.hash [])) "h" ⟨.hash [], none⟩ ["v"] false rfl rfl

/-- C9: a type-mismatched `incrby` (stored value a `List`, `Set` or `Hash`)
and a type-mismatched `push` (stored value not a `List`) leave the whole
shared state — entries, expirations and shutdown flag — unchanged: `incrby`'s
second pass overwrites only a clone of the data, and `push`'s `if let` arms
fail without touching the entry. -/
theorem wrong_type_ops_leave_state_unchanged :
    (∀ (s : State) (k : String) (e : Entry) (δ : Int),
      s.entries k = some e → e.data.isString = false →
      dbIncrby s k δ = .ok (s, some okBytes))
    ∧ (∀ (s : State) (k : String) (e : Entry) (vs : List String) (r : Bool),
      s.entries k = some e → e.data.isList = false →
      dbPush s k vs r = s) :=
  ⟨fun s k e δ hk hne => dbIncrby_not_string s k e δ hk hne,
   fun s k e vs r hk hnl => dbPush_not_list s k e vs r hk hnl⟩

/-- The full behavior C5 claims of `set(k, v, ttl?)` at clock instant `now`:
(1) the entry for `k` is replaced by the new `String` value with expiration
`now + ttl` (other keys untouched); (2) the final expirations set contains the
new `(now+ttl, k)` pair (if a ttl was given) plus every old pair except the
replaced entry's old pair — i.e. the old pair was removed before the new one
was inserted; (3) the sweeper is notified exactly when a ttl is given and
either nothing was scheduled or the new instant is strictly earlier than the
previously nearest scheduled instant. -/
def SetSpec (s : State) (k : String) (v : Bytes) (ttl : Option Nat) (now : Nat) : Prop :=
  (dbSet s k v ttl now).1.entries k = some ⟨.string v, ttl.map (fun d => now + d)⟩
  ∧ (∀ k', k' ≠ k → (dbSet s k v ttl now).1.entries k' = s.entries k')
  ∧ (∀ w k', (w, k') ∈ (dbSet s k v ttl now).1.expirations ↔
      ((∃ d, ttl = some d ∧ w = now + d ∧ k' = k)
       ∨ ((w, k') ∈ s.expirations ∧ ¬(k' = k ∧ (s.entries k).bind Entry.expires_at = some w))))
  ∧ ((dbSet s k v ttl now).2 = true ↔
      ∃ d, ttl = some d ∧
        (nextExpiration s = none ∨ ∃ e, nextExpiration s = some e ∧ now + d < e))

/-- C5: `Db::set` replaces the entry, removes the previous `(instant, key)`
pair before inserting the new one, and wakes the sweeper exactly when the new
expiration is strictly nearer than the previously nearest one (or a ttl is
given while nothing was scheduled).  The `Nodup` hypothesis is the `BTreeSet`
representation invariant of the expirations list. -/
theorem set_replaces_removes_and_notifies (s : State) (k : String) (v : Bytes)
    (ttl : Option Nat) (now : Nat) (hnd : s.expirations.Nodup) :
    SetSpec s k v ttl now := by
  refine ⟨dbSet_entries_self s k v ttl now,
          fun k' h => dbSet_entries_other s k v ttl now k' h, ?_,
          dbSet_notify s k v ttl now⟩
  intro w k'
  rw [dbSet_expirations]
  cases ttl with
  | none =>
    rw [mem_eraseOldPair s k hnd]
    simp
  | some d =>
    rw [mem_setInsert, mem_eraseOldPair s k hnd]
    simp [Prod.ext_iff]

/-- Witness for `set_replaces_removes_and_notifies` on the fresh store. -/
theorem set_replaces_removes_and_notifies_witness :
    (State.initial.expirations).Nodup ∧ SetSpec State.initial "k" (strToBytes "v") (some 10) 5 :=
  ⟨List.nodup_nil,
   set_replaces_removes_and_notifies State.initial "k" (strToBytes "v") (some 10) 5 List.nodup_nil⟩

/-- C6: every storage-engine operation preserves the expiration-index
invariant (`Inv`: a key is in `expirations` iff its entry exists with a
matching non-empty `expires_at`), together with the sortedness representation
invariant of the expirations list: `set`, any non-panicking `incrby`, `push`,
the sweeper's purge pass, and the shutdown signal.  (`Db::get` takes `&self`
and performs no state update, which the embedding reflects by its type
`State → String → Panics (Option Bytes)` — there is nothing to prove for it.) -/
theorem storage_ops_preserve_invariant (s : State) (h : InvWF s) :
    (∀ k v ttl now, InvWF (dbSet s k v ttl now).1)
    ∧ (∀ k δ s' r, dbIncrby s k δ = .ok (s', r) → InvWF s')
    ∧ (∀ k vs right, InvWF (dbPush s k vs right))
    ∧ (∀ now, InvWF (purgeExpiredKeys s now).1)
    ∧ InvWF (shutdownPurgeTask s) :=
  ⟨fun k v ttl now => dbSet_preserves_invariant s k v ttl now h,
   fun k δ s' r hok => dbIncrby_preserves_invariant s k δ s' r h hok,
   fun k vs right => dbPush_preserves_invariant s k vs right h,
   fun now => purge_preserves_invariant s now h,
   shutdown_preserves_invariant s h⟩

/-- Witness for `storage_ops_preserve_invariant` at the fresh store. -/
theorem storage_ops_preserve_invariant_witness :
    InvWF State.initial
    ∧ (∀ k v ttl now, InvWF (dbSet State.initial k v ttl now).1)
    ∧ InvWF (shutdownPurgeTask State.initial) := by
  have h0 : InvWF State.initial := by
    refine ⟨fun w k => ?_, List.Pairwise.nil⟩
    simp [State.initial]
  have h := storage_ops_preserve_invariant State.initial h0
  exact ⟨h0, h.1, h.2.2.2.2⟩

/-- Witness for `wrong_type_ops_leave_state_unchanged` on a key holding a `Set`. -/
theorem wrong_type_ops_leave_state_unchanged_witness :
    (stateWith "s" (.set [strToBytes "m"])).entries "s" = some ⟨.set [strToBytes "m"], none⟩
    ∧ (DbData.set [strToBytes "m"]).isString = false
    ∧ (DbData.set [strToBytes "m"]).isList = false
    ∧ dbIncrby (stateWith "s" (.set [strToBytes "m"])) "s" 7
        = .ok (stateWith "s" (.set [strToBytes "m"]), some okBytes)
    ∧ dbPush (stateWith "s" (.set [strToBytes "m"])) "s" ["z"] true
        = stateWith "s" (.set [strToBytes "m"]) := by
  refine ⟨rfl, rfl, rfl, ?_, ?_⟩
  · exact wrong_type_ops_leave_state_unchanged.1 (stateWith "s" (.set [strToBytes "m"])) "s"
      ⟨.set [strToBytes "m"], none⟩ 7 rfl rfl
  · exact wrong_type_ops_leave_state_unchanged.2 (stateWith "s" (.set [strToBytes "m"])) "s"
      ⟨.set [strToBytes "m"], none⟩ ["z"] true rfl rfl

end NanoRedis

-- sanity checks (concrete executions of the model)
example :
    NanoRedis.dbGet NanoRedis.State.initial "k" = .panicked := rfl

example :
    NanoRedis.bytesToI64 (NanoRedis.strToBytes "abc") = none := rfl

example :
    NanoRedis.bytesToI64 (NanoRedis.strToBytes "-15") = some (-15) := by decide

example :
    NanoRedis.bytesToI64 (NanoRedis.strToBytes "10") = some 10 := by decide

example :
    NanoRedis.intToDecimalBytes 15 = NanoRedis.strToBytes "15" := by decide
